import Mathlib

/-!
# Verification of the VAMSeek grid partition / coordinate mapping core

Shallow embedding of `src/scripts/fast_extract.py` (grid extraction
arithmetic) together with the spec-level CoordinateMapper contract
(`timeAt`, `frameToPageCoordinate`, `timeToCoordinate`), whose
implementation lives outside the provided sources.

Real-valued quantities (durations, intervals, timestamps) are modelled as
rationals; Python's `int(x)` truncation toward zero is modelled by `pyInt`.
The per-page ffmpeg invocation is modelled by a success oracle
`o : ℕ → Bool` telling, for each chunk start frame, whether the rasterizer
call succeeded (returncode 0 and output file present).
-/

namespace VamSeek

/-- Python `int(q)` on a real value: truncation toward zero. -/
def pyInt (q : ℚ) : ℤ := if 0 ≤ q then ⌊q⌋ else -⌊-q⌋

/-- `total_frames = int(duration / interval) + 1` as computed at
`fast_extract.py:118` inside `extract_grid_frames`. -/
def extract_total_frames (duration interval : ℚ) : ℤ :=
  pyInt (duration / interval) + 1

/-- `total_frames = int(duration / interval) + 1` as computed at
`fast_extract.py:176` inside `generate_ai_assets`. -/
def ai_total_frames (duration interval : ℚ) : ℤ :=
  pyInt (duration / interval) + 1

/-- `total_frames = int(duration / interval) + 1` as computed at
`fast_extract.py:215` inside `extract_single_grid`. -/
def zoom_total_frames (duration interval : ℚ) : ℤ :=
  pyInt (duration / interval) + 1

/-- `frames_per_grid = cols * cols` (`fast_extract.py:119`). -/
def frames_per_grid (cols : ℕ) : ℕ := cols * cols

/-- `actual_rows = (actual_frames + cols - 1) // cols` (`fast_extract.py:132`),
the row count the tile filter is asked for. -/
def actualRows (actual_frames cols : ℕ) : ℕ := (actual_frames + cols - 1) / cols

/-- One entry of the list built by `extract_grid_frames`
(`fast_extract.py:153-158`): the dict
`{'path': grid_<gridIndex>.jpg, 'start_frame', 'end_frame', 'start_time'}`.
`gridIndex` is the numeric index embedded in the output filename
`grid_{grid_index:04d}.jpg`. -/
structure GridImage where
  gridIndex : ℕ
  start_frame : ℕ
  end_frame : ℕ
  start_time : ℚ
deriving DecidableEq, Repr

/-- The loop `for start_frame in range(0, total_frames, frames_per_grid)`
of `extract_grid_frames` (`fast_extract.py:127-159`), with the per-chunk
`end_frame = min(start_frame + frames_per_grid, total_frames)` and
`start_time = start_frame * interval`; a page is appended (and
`grid_index` incremented) only when the rasterizer call succeeds, which
the oracle `o` reports per chunk start.  The structural `fuel` argument
bounds the number of iterations; the top-level caller passes enough fuel
for the whole range (each iteration advances `s` by at least one when
`0 < cap`). -/
def extractLoop (o : ℕ → Bool) (total cap : ℕ) (interval : ℚ) :
    ℕ → ℕ → ℕ → List GridImage
  | 0, _, _ => []
  | fuel + 1, s, gi =>
    if s < total then
      let e := min (s + cap) total
      if o s then
        ⟨gi, s, e, (s : ℚ) * interval⟩ :: extractLoop o total cap interval fuel (s + cap) (gi + 1)
      else
        extractLoop o total cap interval fuel (s + cap) gi
    else []

/-- `extract_grid_frames(video_path, output_dir, interval, cols, …, duration)`
(`fast_extract.py:107-161`), for the case where `duration` is supplied by the
caller (the `duration is None` branch queries ffprobe and is I/O).  The
pixel-size arguments and paths only parametrise the ffmpeg command and are
omitted; the rasterizer outcome is the oracle `o`. -/
def extract_grid_frames (o : ℕ → Bool) (interval : ℚ) (cols : ℕ) (duration : ℚ) :
    List GridImage :=
  let total := (extract_total_frames duration interval).toNat
  extractLoop o total (frames_per_grid cols) interval total 0 0

/-- The chunk ranges `(start_frame, end_frame)` enumerated by the same loop
(`fast_extract.py:127-128`), independent of rasterizer outcomes. -/
def chunksLoop (total cap : ℕ) : ℕ → ℕ → List (ℕ × ℕ)
  | 0, _ => []
  | fuel + 1, s =>
    if s < total then
      (s, min (s + cap) total) :: chunksLoop total cap fuel (s + cap)
    else []

/-- The full page partition `[start_frame, end_frame)` that
`extract_grid_frames` iterates over for a given duration/interval/cols. -/
def computePages (duration interval : ℚ) (cols : ℕ) : List (ℕ × ℕ) :=
  let total := (extract_total_frames duration interval).toNat
  chunksLoop total (frames_per_grid cols) total 0

/-- The sample instants `0, interval, 2·interval, …` for the
`total_frames` samples of `extract_grid_frames`; instant `f` is captured
at `f * interval` (the `fps=1/interval` filter together with
`start_time = start_frame * interval`). -/
def sampleTimes (duration interval : ℚ) : List ℚ :=
  (List.range (extract_total_frames duration interval).toNat).map
    (fun f : ℕ => (f : ℚ) * interval)

/-- Python error raised by the bare arithmetic of
`int(duration / interval) + 1` when `interval == 0`. -/
inductive PyError
  | zeroDivisionError
deriving DecidableEq, Repr

/-- The sample-count computation exactly as the code performs it
(`fast_extract.py:118`): no parameter validation; division by a zero
interval raises `ZeroDivisionError`, every other input yields the numeric
value `int(duration / interval) + 1`. -/
def code_computeSampleCount (duration interval : ℚ) : Except PyError ℤ :=
  if interval = 0 then .error .zeroDivisionError
  else .ok (pyInt (duration / interval) + 1)

/-- Error taxonomy of the spec's mapping core (§7). -/
inductive MapError
  | invalidParameter
  | outOfRange
deriving DecidableEq, Repr

/-- Modelled from the spec: `SamplingConfig` (§3) — `interval` (seconds
between samples), `cols` (grid columns = grid rows per page), cell pixel
size, and `pageCapacity` (defaulting to `cols × cols`); the shared
parameter type of GridPartitioner and CoordinateMapper is not among the
provided sources. -/
structure SamplingConfig where
  interval : ℚ
  cols : ℕ
  cellWidth : ℕ
  cellHeight : ℕ
  pageCapacity : ℕ
deriving DecidableEq, Repr

/-- Modelled from the spec: `computeSampleCount(duration, interval) =
floor(duration / interval) + 1` (§4.1); the GridPartitioner contract
function itself is not among the provided sources. -/
def computeSampleCountSpec (duration interval : ℚ) : ℤ :=
  ⌊duration / interval⌋ + 1

/-- Modelled from the spec: `timeAt(frameIndex, config) = frameIndex ×
config.interval` (§4.2); the CoordinateMapper implementation is not among
the provided sources. -/
def timeAt (frameIndex : ℕ) (cfg : SamplingConfig) : ℚ :=
  (frameIndex : ℚ) * cfg.interval

/-- Modelled from the spec: `frameToPageCoordinate(frameIndex, config)`
(§4.1): `pageIndex = frameIndex // pageCapacity`, `offset = frameIndex %
pageCapacity`, `row = offset // cols`, `column = offset % cols`; the
GridPartitioner contract function is not among the provided sources. -/
def frameToPageCoordinate (frameIndex : ℕ) (cfg : SamplingConfig) : ℕ × ℕ × ℕ :=
  (frameIndex / cfg.pageCapacity,
   frameIndex % cfg.pageCapacity / cfg.cols,
   frameIndex % cfg.pageCapacity % cfg.cols)

/-- Modelled from the spec: `timeToCoordinate(timestamp, config)` (§4.2):
`frameIndex = round(timestamp / interval)` then delegate to
`frameToPageCoordinate`; fails with `OutOfRange` if `timestamp < 0` or the
resulting `frameIndex` exceeds the known sample count (which needs the
video's `duration`); the CoordinateMapper implementation is not among the
provided sources. -/
def timeToCoordinate (timestamp : ℚ) (cfg : SamplingConfig) (duration : ℚ) :
    Except MapError (ℕ × ℕ × ℕ) :=
  if timestamp < 0 then .error .outOfRange
  else
    let f : ℤ := round (timestamp / cfg.interval)
    if computeSampleCountSpec duration cfg.interval ≤ f then .error .outOfRange
    else .ok (frameToPageCoordinate f.toNat cfg)

/-! ## Helper lemmas -/

theorem pyInt_of_nonneg {q : ℚ} (h : 0 ≤ q) : pyInt q = ⌊q⌋ := if_pos h

theorem chunksLoop_mem {total cap : ℕ} :
    ∀ {fuel s : ℕ} {p : ℕ × ℕ}, p ∈ chunksLoop total cap fuel s →
      s ≤ p.1 ∧ p.1 < total ∧ p.2 = min (p.1 + cap) total := by
  intro fuel
  induction fuel with
  | zero => intro s p hp; simp [chunksLoop] at hp
  | succ fuel ih =>
    intro s p hp
    rw [chunksLoop] at hp
    by_cases h : s < total
    · rw [if_pos h] at hp
      rcases List.mem_cons.mp hp with rfl | hp2
      · exact ⟨le_refl _, h, rfl⟩
      · obtain ⟨h1, h2, h3⟩ := ih hp2
        exact ⟨le_trans (Nat.le_add_right s cap) h1, h2, h3⟩
    · rw [if_neg h] at hp; simp at hp

theorem chunksLoop_cover {total cap : ℕ} (hcap : 1 ≤ cap) :
    ∀ fuel s f, total ≤ fuel + s → s ≤ f → f < total →
      ∃ p ∈ chunksLoop total cap fuel s, p.1 ≤ f ∧ f < p.2 := by
  intro fuel
  induction fuel with
  | zero => intro s f hfs hsf hft; omega
  | succ fuel ih =>
    intro s f hfs hsf hft
    have hst : s < total := lt_of_le_of_lt hsf hft
    rw [chunksLoop, if_pos hst]
    by_cases hf : f < min (s + cap) total
    · exact ⟨(s, min (s + cap) total), List.mem_cons_self _ _, hsf, hf⟩
    · have hge : s + cap ≤ f := by
        rcases Nat.lt_or_ge f (s + cap) with h | h
        · exact absurd (lt_min h hft) hf
        · exact h
      obtain ⟨p, hmem, h1, h2⟩ := ih (s + cap) f (by omega) hge hft
      exact ⟨p, List.mem_cons_of_mem _ hmem, h1, h2⟩

theorem chunksLoop_head_start {total cap : ℕ} :
    ∀ {fuel s : ℕ} {q : ℕ × ℕ} {rest : List (ℕ × ℕ)},
      chunksLoop total cap fuel s = q :: rest → q.1 = s ∧ s < total := by
  intro fuel s q rest h
  cases fuel with
  | zero => simp [chunksLoop] at h
  | succ fuel =>
    rw [chunksLoop] at h
    by_cases hst : s < total
    · rw [if_pos hst] at h
      rw [List.cons.injEq] at h
      exact ⟨by rw [← h.1], hst⟩
    · rw [if_neg hst] at h; simp at h

theorem chunksLoop_chain {total cap : ℕ} :
    ∀ fuel s, List.Chain' (fun p q : ℕ × ℕ => p.2 = q.1)
      (chunksLoop total cap fuel s) := by
  intro fuel
  induction fuel with
  | zero => intro s; simp [chunksLoop]
  | succ fuel ih =>
    intro s
    rw [chunksLoop]
    by_cases hst : s < total
    · rw [if_pos hst]
      rcases hrec : chunksLoop total cap fuel (s + cap) with _ | ⟨q, rest⟩
      · simp
      · rw [List.chain'_cons]
        obtain ⟨hq1, hq2⟩ := chunksLoop_head_start hrec
        refine ⟨?_, by rw [← hrec]; exact ih (s + cap)⟩
        simp [hq1, Nat.min_eq_left (le_of_lt hq2)]
    · rw [if_neg hst]; simp

theorem chunksLoop_pairwise {total cap : ℕ} :
    ∀ fuel s, List.Pairwise (fun p q : ℕ × ℕ => p.2 ≤ q.1)
      (chunksLoop total cap fuel s) := by
  intro fuel
  induction fuel with
  | zero => intro s; simp [chunksLoop]
  | succ fuel ih =>
    intro s
    rw [chunksLoop]
    by_cases hst : s < total
    · rw [if_pos hst]
      refine List.pairwise_cons.mpr ⟨?_, ih (s + cap)⟩
      intro q hq
      exact le_trans (min_le_left _ _) (chunksLoop_mem hq).1
    · rw [if_neg hst]; simp

theorem chunksLoop_getLast {total cap : ℕ} (hcap : 1 ≤ cap) :
    ∀ (fuel s : ℕ), total ≤ fuel + s →
      ∀ q, (chunksLoop total cap fuel s).getLast? = some q → q.2 = total := by
  intro fuel
  induction fuel with
  | zero => intro s h q hq; simp [chunksLoop] at hq
  | succ fuel ih =>
    intro s h q hq
    by_cases hst : s < total
    · rw [chunksLoop, if_pos hst] at hq
      rcases hrest : chunksLoop total cap fuel (s + cap) with _ | ⟨p, tail⟩
      · have hend : total ≤ s + cap := by
          cases fuel with
          | zero => omega
          | succ fuel2 =>
            rw [chunksLoop] at hrest
            by_cases h2 : s + cap < total
            · rw [if_pos h2] at hrest; simp at hrest
            · omega
        rw [hrest] at hq
        simp only [List.getLast?_singleton, Option.some.injEq] at hq
        rw [← hq]
        simp [Nat.min_eq_right hend]
      · rw [hrest, List.getLast?_cons_cons, ← hrest] at hq
        exact ih (s + cap) (by omega) q hq
    · rw [chunksLoop, if_neg hst] at hq; simp at hq

theorem extractLoop_map_eq_filter (o : ℕ → Bool) (total cap : ℕ) (i : ℚ) :
    ∀ fuel s gi, (extractLoop o total cap i fuel s gi).map
        (fun g => (g.start_frame, g.end_frame)) =
      (chunksLoop total cap fuel s).filter (fun p => o p.1) := by
  intro fuel
  induction fuel with
  | zero => intro s gi; simp [extractLoop, chunksLoop]
  | succ fuel ih =>
    intro s gi
    rw [extractLoop, chunksLoop]
    by_cases hst : s < total
    · rw [if_pos hst, if_pos hst]
      by_cases ho : o s = true
      · rw [if_pos ho]
        simp [List.filter_cons, ho, ih]
      · rw [if_neg ho]
        simp [List.filter_cons, ho, ih]
    · rw [if_neg hst, if_neg hst]
      simp

/-- Loop invariant of `extractLoop`: every produced page starts at a
multiple-of-`cap` offset at or after the loop position `s`, ends at
`min(start + cap, total)`, carries `start_time = start × interval`, and
its filename index (counted from the entry counter `gi`) never exceeds
the number of chunks between `s` and the page's start — strictly fewer
whenever some chunk in between had a failed rasterizer call. -/
theorem extractLoop_inv (o : ℕ → Bool) (total cap : ℕ) (i : ℚ) (hcap : 1 ≤ cap) :
    ∀ fuel s gi, cap ∣ s → ∀ g ∈ extractLoop o total cap i fuel s gi,
      cap ∣ g.start_frame ∧ s ≤ g.start_frame ∧ g.start_frame < total ∧
      g.end_frame = min (g.start_frame + cap) total ∧
      g.start_time = (g.start_frame : ℚ) * i ∧
      o g.start_frame = true ∧
      gi ≤ g.gridIndex ∧
      g.gridIndex - gi ≤ (g.start_frame - s) / cap ∧
      ((∃ u, s ≤ u ∧ u < g.start_frame ∧ cap ∣ u ∧ o u = false) →
        g.gridIndex - gi < (g.start_frame - s) / cap) := by
  intro fuel
  induction fuel with
  | zero => intro s gi _ g hg; simp [extractLoop] at hg
  | succ fuel ih =>
    intro s gi hdvd g hg
    rw [extractLoop] at hg
    by_cases hst : s < total
    · rw [if_pos hst] at hg
      by_cases ho : o s = true
      · rw [if_pos ho] at hg
        rcases List.mem_cons.mp hg with rfl | hg2
        · dsimp only
          refine ⟨hdvd, le_refl _, hst, rfl, rfl, ho, le_refl _, by simp, ?_⟩
          intro ⟨u, hu1, hu2, _, _⟩
          omega
        · obtain ⟨d1, d2, d3, d4, d5, d6, d7, d8, d9⟩ :=
            ih (s + cap) (gi + 1) (Dvd.dvd.add hdvd dvd_rfl) g hg2
          have hstep : (g.start_frame - s) / cap =
              (g.start_frame - (s + cap)) / cap + 1 := by
            have h1 : g.start_frame - s = (g.start_frame - (s + cap)) + cap := by
              omega
            rw [h1, Nat.add_div_right _ (by omega)]
          refine ⟨d1, by omega, d3, d4, d5, d6, by omega, by omega, ?_⟩
          intro ⟨u, hu1, hu2, hu3, hu4⟩
          have hune : u ≠ s := by
            intro h
            rw [h] at hu4
            rw [hu4] at ho
            simp at ho
          have huge : s + cap ≤ u := by
            have : cap ∣ u - s := Nat.dvd_sub' hu3 hdvd
            have hlt : s < u := lt_of_le_of_ne hu1 (Ne.symm hune)
            have : cap ≤ u - s := Nat.le_of_dvd (by omega) this
            omega
          have := d9 ⟨u, huge, hu2, hu3, hu4⟩
          omega
      · rw [if_neg ho] at hg
        obtain ⟨d1, d2, d3, d4, d5, d6, d7, d8, d9⟩ :=
          ih (s + cap) gi (Dvd.dvd.add hdvd dvd_rfl) g hg
        have hstep : (g.start_frame - s) / cap =
            (g.start_frame - (s + cap)) / cap + 1 := by
          have h1 : g.start_frame - s = (g.start_frame - (s + cap)) + cap := by
            omega
          rw [h1, Nat.add_div_right _ (by omega)]
        exact ⟨d1, by omega, d3, d4, d5, d6, d7, by omega, fun _ => by omega⟩
    · rw [if_neg hst] at hg; simp at hg

theorem extractLoop_sorted (o : ℕ → Bool) (total cap : ℕ) (i : ℚ)
    (hcap : 1 ≤ cap) :
    ∀ fuel s gi, cap ∣ s →
      List.Pairwise (fun a b : GridImage => a.start_frame < b.start_frame)
        (extractLoop o total cap i fuel s gi) := by
  intro fuel
  induction fuel with
  | zero => intro s gi _; simp [extractLoop]
  | succ fuel ih =>
    intro s gi hdvd
    rw [extractLoop]
    by_cases hst : s < total
    · rw [if_pos hst]
      by_cases ho : o s = true
      · rw [if_pos ho]
        refine List.pairwise_cons.mpr ⟨?_, ih (s + cap) (gi + 1)
          (Dvd.dvd.add hdvd dvd_rfl)⟩
        intro g hg
        have := (extractLoop_inv o total cap i hcap fuel (s + cap) (gi + 1)
          (Dvd.dvd.add hdvd dvd_rfl) g hg).2.1
        show s < g.start_frame
        omega
      · rw [if_neg ho]
        exact ih (s + cap) gi (Dvd.dvd.add hdvd dvd_rfl)
    · rw [if_neg hst]; simp

theorem extractLoop_map_gridIndex (o : ℕ → Bool) (total cap : ℕ) (i : ℚ) :
    ∀ fuel s gi, (extractLoop o total cap i fuel s gi).map
        (fun g => g.gridIndex) =
      List.range' gi (extractLoop o total cap i fuel s gi).length := by
  intro fuel
  induction fuel with
  | zero => intro s gi; simp [extractLoop]
  | succ fuel ih =>
    intro s gi
    rw [extractLoop]
    by_cases hst : s < total
    · rw [if_pos hst]
      by_cases ho : o s = true
      · rw [if_pos ho]
        simp only [List.map_cons, List.length_cons, List.range'_succ]
        rw [ih (s + cap) (gi + 1)]
      · rw [if_neg ho]
        exact ih (s + cap) gi
    · rw [if_neg hst]; simp

theorem actualRows_eq_ceil (a cols : ℕ) (hc : 0 < cols) :
    (actualRows a cols : ℤ) = ⌈(a : ℚ) / (cols : ℚ)⌉ := by
  have hcq : (0 : ℚ) < (cols : ℚ) := by exact_mod_cast hc
  have hn1 : actualRows a cols * cols ≤ a + cols - 1 := Nat.div_mul_le_self _ _
  have hn2 : a + cols - 1 < (actualRows a cols + 1) * cols :=
    (Nat.div_lt_iff_lt_mul hc).mp (Nat.lt_succ_self _)
  rw [Nat.succ_mul] at hn2
  have hle : a ≤ actualRows a cols * cols := by omega
  have hlt : actualRows a cols * cols < a + cols := by omega
  symm
  rw [Int.ceil_eq_iff]
  constructor
  · rw [lt_div_iff₀ hcq]
    have : ((actualRows a cols * cols : ℕ) : ℚ) < ((a + cols : ℕ) : ℚ) := by
      exact_mod_cast hlt
    push_cast at this ⊢
    nlinarith
  · rw [div_le_iff₀ hcq]
    exact_mod_cast hle

end VamSeek

namespace VamSeek

/-- C2: for every duration ≥ 0 and interval > 0 the total sample count
equals `floor(duration / interval) + 1`, and the batch extraction, the
AI-mode single grid and the zoom grid all compute this same count from
the same formula. -/
theorem sampleCount_formula_consistent (d i : ℚ) (hd : 0 ≤ d) (hi : 0 < i) :
    extract_total_frames d i = ⌊d / i⌋ + 1 ∧
    ai_total_frames d i = ⌊d / i⌋ + 1 ∧
    zoom_total_frames d i = ⌊d / i⌋ + 1 := by
  have hq : (0 : ℚ) ≤ d / i := div_nonneg hd hi.le
  refine ⟨?_, ?_, ?_⟩ <;>
    simp [extract_total_frames, ai_total_frames, zoom_total_frames, pyInt_of_nonneg hq]

/-- Witness for C2 at `duration = 250`, `interval = 10`. -/
theorem sampleCount_formula_consistent_witness :
    extract_total_frames 250 10 = ⌊(250 : ℚ) / 10⌋ + 1 ∧
    ai_total_frames 250 10 = ⌊(250 : ℚ) / 10⌋ + 1 ∧
    zoom_total_frames 250 10 = ⌊(250 : ℚ) / 10⌋ + 1 :=
  sampleCount_formula_consistent 250 10 (by norm_num) (by norm_num)

/-- C6: a duration that is an exact non-negative multiple of the interval
yields a sample at the duration itself (the `+1` term); in particular
`duration = 30`, `interval = 10` gives `sampleCount = 4` with instants
`0, 10, 20, 30`, not 3. -/
theorem boundary_inclusion :
    (∀ (k : ℕ) (i : ℚ), 0 < i →
      extract_total_frames ((k : ℚ) * i) i = (k : ℤ) + 1 ∧
      ((k : ℚ) * i) ∈ sampleTimes ((k : ℚ) * i) i) ∧
    extract_total_frames 30 10 = 4 ∧
    sampleTimes 30 10 = [0, 10, 20, 30] := by
  have hmain : ∀ (k : ℕ) (i : ℚ), 0 < i →
      extract_total_frames ((k : ℚ) * i) i = (k : ℤ) + 1 := by
    intro k i hi
    have hdiv : ((k : ℚ) * i) / i = (k : ℚ) := by
      field_simp
    simp [extract_total_frames, hdiv,
      pyInt_of_nonneg (by positivity : (0 : ℚ) ≤ (k : ℚ))]
  refine ⟨fun k i hi => ⟨hmain k i hi, ?_⟩, ?_, ?_⟩
  · have hc : (extract_total_frames ((k : ℚ) * i) i).toNat = k + 1 := by
      rw [hmain k i hi]; omega
    simp only [sampleTimes, hc]
    exact List.mem_map_of_mem _ (List.mem_range.mpr (Nat.lt_succ_self k))
  · norm_num [extract_total_frames, pyInt]
  · have h : (extract_total_frames 30 10).toNat = 4 := by
      norm_num [extract_total_frames, pyInt]; decide
    simp only [sampleTimes, h]
    norm_num [List.range_succ]

/-- Witness for C6 at `k = 3`, `interval = 10`. -/
theorem boundary_inclusion_witness :
    extract_total_frames ((3 : ℕ) * (10 : ℚ)) 10 = (3 : ℤ) + 1 :=
  (boundary_inclusion.1 3 10 (by norm_num)).1

/-- C4: with `duration = 250`, `interval = 10`, `cols = 5` the code yields
`sampleCount = 26`, `pageCapacity = 25`; page 0 holds frames `[0, 25)`
(5 full rows), page 1 holds only frame 25 (`rows = 1`,
`start_time = 250`). -/
theorem multi_page_example :
    extract_total_frames 250 10 = 26 ∧
    frames_per_grid 5 = 25 ∧
    computePages 250 10 5 = [(0, 25), (25, 26)] ∧
    actualRows (25 - 0) 5 = 5 ∧
    actualRows (26 - 25) 5 = 1 ∧
    extract_grid_frames (fun _ => true) 10 5 250 =
      [⟨0, 0, 25, 0⟩, ⟨1, 25, 26, 250⟩] := by
  have h : (extract_total_frames 250 10).toNat = 26 := by
    norm_num [extract_total_frames, pyInt]; decide
  refine ⟨?_, by decide, ?_, by decide, by decide, ?_⟩
  · norm_num [extract_total_frames, pyInt]
  · simp only [computePages, h, frames_per_grid]
    decide
  · simp only [extract_grid_frames, h, frames_per_grid]
    norm_num [extractLoop]

/-- C8 counterexample: the sample-count computation of
`extract_grid_frames` performs no validation.  At `duration = -10`,
`interval = 10` it returns the numeric value `0`; at `duration = 10`,
`interval = -10` it returns `0`; at `interval = 0` it raises
`ZeroDivisionError`, not an `InvalidParameter` error. -/
theorem sampleCount_no_validation_cex :
    code_computeSampleCount (-10) 10 = .ok 0 ∧
    code_computeSampleCount 10 (-10) = .ok 0 ∧
    code_computeSampleCount 10 0 = .error .zeroDivisionError := by
  refine ⟨?_, ?_, by simp [code_computeSampleCount]⟩ <;>
    norm_num [code_computeSampleCount, pyInt]

/-- C8 amended: the sample-count computation never fails with an
`InvalidParameter` error: for every nonzero interval (including negative
intervals and negative durations) it returns the numeric value
`int(duration / interval) + 1`, and for a zero interval it raises
`ZeroDivisionError`. -/
theorem sampleCount_no_validation (d i : ℚ) :
    (i ≠ 0 → code_computeSampleCount d i = .ok (pyInt (d / i) + 1)) ∧
    (i = 0 → code_computeSampleCount d i = .error .zeroDivisionError) := by
  constructor <;> intro h <;> simp [code_computeSampleCount, h]

/-- Witness for the amended C8 at `duration = -10`, `interval = 10`. -/
theorem sampleCount_no_validation_witness :
    code_computeSampleCount (-10) 10 = .ok (pyInt ((-10 : ℚ) / 10) + 1) :=
  (sampleCount_no_validation (-10) 10).1 (by norm_num)

/-- C1: for every frame index below the sample count, mapping the frame
to its time and back yields the same grid coordinate —
`timeToCoordinate (timeAt f cfg) cfg = frameToPageCoordinate f cfg`. -/
theorem inverse_law_roundtrip (cfg : SamplingConfig) (duration : ℚ) (f : ℕ)
    (hi : 0 < cfg.interval)
    (hf : (f : ℤ) < computeSampleCountSpec duration cfg.interval) :
    timeToCoordinate (timeAt f cfg) cfg duration =
      .ok (frameToPageCoordinate f cfg) := by
  have hne : cfg.interval ≠ 0 := ne_of_gt hi
  have h1 : timeAt f cfg / cfg.interval = (f : ℚ) := by
    rw [timeAt]; exact mul_div_cancel_right₀ _ hne
  have h2 : ¬ timeAt f cfg < 0 := not_lt.mpr (by rw [timeAt]; positivity)
  rw [timeToCoordinate, if_neg h2]
  simp only [h1, round_natCast]
  rw [if_neg (not_le.mpr hf)]
  simp

/-- Witness for C1 at `cfg = ⟨10, 5, 192, 108, 25⟩`, `duration = 250`,
`frameIndex = 25`. -/
theorem inverse_law_roundtrip_witness :
    timeToCoordinate (timeAt 25 ⟨10, 5, 192, 108, 25⟩) ⟨10, 5, 192, 108, 25⟩ 250 =
      .ok (frameToPageCoordinate 25 ⟨10, 5, 192, 108, 25⟩) :=
  inverse_law_roundtrip ⟨10, 5, 192, 108, 25⟩ 250 25 (by norm_num)
    (by norm_num [computeSampleCountSpec])

/-- C7: a zero duration yields `sampleCount = 1`, a single page `[0, 1)`
holding the single frame 0 in a one-row grid, whose coordinate is
`(0, 0, 0)` and whose time is `0`. -/
theorem zero_duration_single_cell (i : ℚ) (cols : ℕ) (cfg : SamplingConfig)
    (hi : 0 < i) (hc : 1 ≤ cols) :
    extract_total_frames 0 i = 1 ∧
    computePages 0 i cols = [(0, 1)] ∧
    extract_grid_frames (fun _ => true) i cols 0 = [⟨0, 0, 1, 0⟩] ∧
    actualRows 1 cols = 1 ∧
    frameToPageCoordinate 0 cfg = (0, 0, 0) ∧
    timeAt 0 cfg = 0 := by
  have hne : i ≠ 0 := ne_of_gt hi
  have h1 : extract_total_frames 0 i = 1 := by
    simp [extract_total_frames, pyInt]
  have htn : (extract_total_frames 0 i).toNat = 1 := by rw [h1]; rfl
  have hcols : 0 < cols := hc
  have hcap : 1 ≤ frames_per_grid cols := Nat.one_le_iff_ne_zero.mpr
    (Nat.mul_ne_zero (Nat.pos_iff_ne_zero.mp hcols) (Nat.pos_iff_ne_zero.mp hcols))
  refine ⟨h1, ?_, ?_, ?_, ?_, ?_⟩
  · simp only [computePages, htn]
    simp [chunksLoop, Nat.min_eq_right hcap]
  · simp only [extract_grid_frames, htn]
    simp [extractLoop, Nat.min_eq_right hcap]
  · have : 1 + cols - 1 = cols := by omega
    simp [actualRows, this, Nat.div_self hcols]
  · simp [frameToPageCoordinate]
  · simp [timeAt]

/-- C3: for positive duration and interval and `cols ≥ 1`, the pages of
the extraction loop partition `[0, sampleCount)` into consecutive chunks
of at most `cols × cols` frames: every frame below the sample count lies
in exactly one page interval (no gaps, no overlaps), each page ends where
the next begins, and every page's end is `min(start + capacity, total)`
(so every chunk holds `pageCapacity` frames except possibly the last). -/
theorem pages_partition_sample_range (d i : ℚ) (cols : ℕ)
    (hd : 0 < d) (hi : 0 < i) (hc : 1 ≤ cols) :
    (∀ f : ℕ, f < (extract_total_frames d i).toNat ↔
      ∃! p : ℕ × ℕ, p ∈ computePages d i cols ∧ p.1 ≤ f ∧ f < p.2) ∧
    List.Chain' (fun p q : ℕ × ℕ => p.2 = q.1) (computePages d i cols) ∧
    (∀ p ∈ computePages d i cols,
      p.2 = min (p.1 + frames_per_grid cols) (extract_total_frames d i).toNat) := by
  have hcap : 1 ≤ frames_per_grid cols :=
    Nat.one_le_iff_ne_zero.mpr (Nat.mul_ne_zero (by omega) (by omega))
  refine ⟨?_, chunksLoop_chain _ _, fun p hp => (chunksLoop_mem hp).2.2⟩
  intro f
  constructor
  · intro hf
    obtain ⟨p, hmem, h1, h2⟩ :=
      chunksLoop_cover hcap ((extract_total_frames d i).toNat) 0 f (by omega)
        (Nat.zero_le f) hf
    refine ⟨p, ⟨hmem, h1, h2⟩, ?_⟩
    intro q ⟨hqmem, hq1, hq2⟩
    by_contra hne
    have hpw : List.Pairwise (fun p q : ℕ × ℕ => p.2 ≤ q.1 ∨ q.2 ≤ p.1)
        (computePages d i cols) :=
      (chunksLoop_pairwise _ _).imp Or.inl
    have hsymm : Symmetric (fun p q : ℕ × ℕ => p.2 ≤ q.1 ∨ q.2 ≤ p.1) :=
      fun _ _ h => h.symm
    rcases hpw.forall hsymm hqmem hmem hne with h | h
    · omega
    · omega
  · intro ⟨p, ⟨hmem, _, h2⟩, _⟩
    have := (chunksLoop_mem hmem).2.2
    omega

/-- Witness for C3 at `duration = 250`, `interval = 10`, `cols = 5`:
the partition covers frame 7 by a unique page. -/
theorem pages_partition_sample_range_witness :
    7 < (extract_total_frames 250 10).toNat ↔
      ∃! p : ℕ × ℕ, p ∈ computePages 250 10 5 ∧ p.1 ≤ 7 ∧ 7 < p.2 :=
  (pages_partition_sample_range 250 10 5 (by norm_num) (by norm_num)
    (by norm_num)).1 7

/-- C5: every page's row count is `ceil(chunkSize / cols)`
(`(chunkSize + cols - 1) // cols`), and every non-final page (one that is
not the last element of the page list) holds exactly `cols × cols` frames
and has exactly `cols` rows, so fewer than `cols` rows can occur only on
the final page. -/
theorem rows_ceil_and_full_pages (d i : ℚ) (cols : ℕ)
    (hd : 0 < d) (hi : 0 < i) (hc : 1 ≤ cols) :
    (∀ p ∈ computePages d i cols,
      (actualRows (p.2 - p.1) cols : ℤ) = ⌈((p.2 - p.1 : ℕ) : ℚ) / (cols : ℚ)⌉) ∧
    (∀ p ∈ computePages d i cols,
      (∀ q, (computePages d i cols).getLast? = some q → p ≠ q) →
      p.2 - p.1 = frames_per_grid cols ∧ actualRows (p.2 - p.1) cols = cols) := by
  have hcap : 1 ≤ frames_per_grid cols :=
    Nat.one_le_iff_ne_zero.mpr (Nat.mul_ne_zero (by omega) (by omega))
  constructor
  · intro p _
    exact actualRows_eq_ceil _ _ hc
  · intro p hp hnotlast
    have hne : computePages d i cols ≠ [] := List.ne_nil_of_mem hp
    have hlastq : (computePages d i cols).getLast? =
        some ((computePages d i cols).getLast hne) :=
      List.getLast?_eq_getLast_of_ne_nil hne
    set q := (computePages d i cols).getLast hne with hqdef
    have hqmem : q ∈ computePages d i cols := List.getLast_mem hne
    have hq2 : q.2 = (extract_total_frames d i).toNat :=
      chunksLoop_getLast hcap _ 0 (by omega) q hlastq
    have hpq : p ≠ q := hnotlast q hlastq
    have hpw : List.Pairwise (fun a b : ℕ × ℕ => a.2 ≤ b.1 ∨ b.2 ≤ a.1)
        (computePages d i cols) := (chunksLoop_pairwise _ _).imp Or.inl
    have hsymm : Symmetric (fun a b : ℕ × ℕ => a.2 ≤ b.1 ∨ b.2 ≤ a.1) :=
      fun _ _ h => h.symm
    obtain ⟨_, hp1lt, hpend⟩ := chunksLoop_mem hp
    obtain ⟨_, hq1lt, _⟩ := chunksLoop_mem hqmem
    have hord := hpw.forall hsymm hp hqmem hpq
    have hplt : p.2 < (extract_total_frames d i).toNat := by
      rcases hord with h | h
      · omega
      · omega
    have hfull : p.2 - p.1 = frames_per_grid cols := by omega
    refine ⟨hfull, ?_⟩
    rw [hfull]
    show (frames_per_grid cols + cols - 1) / cols = cols
    rw [frames_per_grid, Nat.add_sub_assoc hc, Nat.mul_add_div (by omega)]
    simp [Nat.div_eq_of_lt (by omega : cols - 1 < cols)]

/-- Witness for C5 at `duration = 250`, `interval = 10`, `cols = 5`, on
page `(0, 25)`. -/
theorem rows_ceil_and_full_pages_witness :
    (actualRows (25 - 0) 5 : ℤ) = ⌈((25 - 0 : ℕ) : ℚ) / (5 : ℚ)⌉ :=
  (rows_ceil_and_full_pages 250 10 5 (by norm_num) (by norm_num) (by norm_num)).1
    (0, 25) (by
      have h : (extract_total_frames 250 10).toNat = 26 := by
        norm_num [extract_total_frames, pyInt]; decide
      simp only [computePages, h, frames_per_grid]
      decide)

/-- C9 counterexample: with `duration = 250`, `interval = 10`, `cols = 5`
and a rasterizer that fails exactly on the first page, the batch
extraction does not fail as a whole: it silently returns the partial
one-page set (the second page, re-numbered as `grid_0000.jpg`) instead of
the full two-page set. -/
theorem partial_pages_cex :
    extract_grid_frames (fun s => decide (0 < s)) 10 5 250 =
      [⟨0, 25, 26, 250⟩] ∧
    extract_grid_frames (fun _ => true) 10 5 250 =
      [⟨0, 0, 25, 0⟩, ⟨1, 25, 26, 250⟩] := by
  have h : (extract_total_frames 250 10).toNat = 26 := by
    norm_num [extract_total_frames, pyInt]; decide
  constructor <;>
    · simp only [extract_grid_frames, h, frames_per_grid]
      norm_num [extractLoop]

/-- C9 amended: on a rasterizer failure during batch grid generation the
failed page is silently skipped and the remaining successful pages are
returned as a (possibly partial) result — the frame ranges of the
returned list are exactly the chunks of the partition whose rasterizer
call succeeded, and no error is signalled. -/
theorem failed_pages_skipped (o : ℕ → Bool) (d i : ℚ) (cols : ℕ) :
    (extract_grid_frames o i cols d).map
        (fun g => (g.start_frame, g.end_frame)) =
      (computePages d i cols).filter (fun p => o p.1) :=
  extractLoop_map_eq_filter o _ _ i _ 0 0

/-- Witness for the amended C9: the failing-first-page oracle at
`duration = 250`, `interval = 10`, `cols = 5`. -/
theorem failed_pages_skipped_witness :
    (extract_grid_frames (fun s => decide (0 < s)) 10 5 250).map
        (fun g => (g.start_frame, g.end_frame)) =
      (computePages 250 10 5).filter (fun p => decide (0 < p.1)) :=
  failed_pages_skipped (fun s => decide (0 < s)) 250 10 5

/-- C10: every element of the list returned by `extract_grid_frames`
starts at a multiple of `cols × cols`, satisfies
`start_frame < end_frame ≤ total_frames` and
`end_frame − start_frame ≤ cols × cols`, carries
`start_time = start_frame × interval`, and the elements appear in
strictly increasing `start_frame` order; the filename indices are the
positions `0, 1, 2, …` among the successful pages, and whenever some
earlier chunk's rasterizer call failed the filename index differs from
`start_frame / (cols × cols)`. -/
theorem grid_list_invariants (o : ℕ → Bool) (d i : ℚ) (cols : ℕ)
    (hc : 1 ≤ cols) (hi : 0 < i) (hd : 0 ≤ d) :
    (∀ g ∈ extract_grid_frames o i cols d,
      frames_per_grid cols ∣ g.start_frame ∧
      g.start_frame < g.end_frame ∧
      g.end_frame ≤ (extract_total_frames d i).toNat ∧
      g.end_frame - g.start_frame ≤ frames_per_grid cols ∧
      g.start_time = (g.start_frame : ℚ) * i) ∧
    List.Pairwise (fun a b : GridImage => a.start_frame < b.start_frame)
      (extract_grid_frames o i cols d) ∧
    (extract_grid_frames o i cols d).map (fun g => g.gridIndex) =
      List.range' 0 (extract_grid_frames o i cols d).length ∧
    (∀ g ∈ extract_grid_frames o i cols d,
      (∃ u, u < g.start_frame ∧ frames_per_grid cols ∣ u ∧ o u = false) →
      g.gridIndex ≠ g.start_frame / frames_per_grid cols) := by
  have hcap : 1 ≤ frames_per_grid cols :=
    Nat.one_le_iff_ne_zero.mpr (Nat.mul_ne_zero (by omega) (by omega))
  refine ⟨?_, ?_, ?_, ?_⟩
  · intro g hg
    obtain ⟨d1, d2, d3, d4, d5, _, _, _, _⟩ :=
      extractLoop_inv o _ _ i hcap _ 0 0 (dvd_zero _) g hg
    exact ⟨d1, by omega, by omega, by omega, d5⟩
  · exact extractLoop_sorted o _ _ i hcap _ 0 0 (dvd_zero _)
  · exact extractLoop_map_gridIndex o _ _ i _ 0 0
  · intro g hg ⟨u, hu1, hu2, hu3⟩
    obtain ⟨_, _, _, _, _, _, _, _, d9⟩ :=
      extractLoop_inv o _ _ i hcap _ 0 0 (dvd_zero _) g hg
    have hlt := d9 ⟨u, Nat.zero_le u, hu1, hu2, hu3⟩
    simp only [Nat.sub_zero] at hlt
    omega

/-- Witness for C10 at the all-success oracle, `duration = 250`,
`interval = 10`, `cols = 5`: the returned pages are strictly increasing
in `start_frame`. -/
theorem grid_list_invariants_witness :
    List.Pairwise (fun a b : GridImage => a.start_frame < b.start_frame)
      (extract_grid_frames (fun _ => true) 10 5 250) :=
  (grid_list_invariants (fun _ => true) 250 10 5 (by norm_num) (by norm_num)
    (by norm_num)).2.1

/-- Witness for C7 at `interval = 10`, `cols = 5`. -/
theorem zero_duration_single_cell_witness :
    extract_total_frames 0 10 = 1 ∧
    computePages 0 10 5 = [(0, 1)] ∧
    extract_grid_frames (fun _ => true) 10 5 0 = [⟨0, 0, 1, 0⟩] ∧
    actualRows 1 5 = 1 ∧
    frameToPageCoordinate 0 ⟨10, 5, 192, 108, 25⟩ = (0, 0, 0) ∧
    timeAt 0 ⟨10, 5, 192, 108, 25⟩ = 0 :=
  zero_duration_single_cell 10 5 ⟨10, 5, 192, 108, 25⟩ (by norm_num) (by norm_num)

end VamSeek
